import Mathlib

/-!
Verification of the fireproof-test repository's synchronization core:
the `/fp` HTTP handlers (content and meta stores) in `src/server/index.ts`,
the message dispatcher and legacy handlers in `src/server/fireproof-backend.ts`,
and the client `HttpSerdeGateway` in `src/connect/gateway.ts`.

The TypeScript code is embedded shallowly: the module-level `Map` objects
become association lists with JavaScript `Map` semantics (insertion order,
in-place update on re-set), and each HTTP handler becomes a pure function
from request data and store state to a response and a new state.
-/

/-! ## JavaScript `Map` model

An association list in insertion order.  `map.set` updates an existing key
in place (keeping its position) and otherwise appends; `map.delete` removes
the key; iteration visits entries in list order. -/

/-- `map.set k v`: replace in place if the key is present, else append. -/
def mapSet (k : String) (v : α) : List (String × α) → List (String × α)
  | [] => [(k, v)]
  | (k', v') :: rest => if k' = k then (k, v) :: rest else (k', v') :: mapSet k v rest

/-- `map.get k`: first value stored under `k`, if any. -/
def mapLookup (k : String) : List (String × α) → Option α
  | [] => none
  | (k', v) :: rest => if k' = k then some v else mapLookup k rest

/-- `map.delete k`: remove the entry stored under `k` (no-op when absent). -/
def mapDelete (k : String) (l : List (String × α)) : List (String × α) :=
  l.filter (fun kv => kv.1 != k)

theorem mapLookup_mapSet_self (k : String) (v : α) (l : List (String × α)) :
    mapLookup k (mapSet k v l) = some v := by
  induction l with
  | nil => simp [mapSet, mapLookup]
  | cons kv rest ih =>
    obtain ⟨k', v'⟩ := kv
    by_cases h : k' = k <;> simp [mapSet, mapLookup, h, ih]

theorem mapLookup_mapSet_ne (k k' : String) (v : α) (l : List (String × α))
    (h : k' ≠ k) : mapLookup k' (mapSet k v l) = mapLookup k' l := by
  induction l with
  | nil => simp [mapSet, mapLookup, Ne.symm h]
  | cons kv rest ih =>
    obtain ⟨k₀, v₀⟩ := kv
    by_cases h₀ : k₀ = k
    · subst h₀
      simp [mapSet, mapLookup, Ne.symm h]
    · simp [mapSet, mapLookup, h₀, ih]

theorem mapSet_mapSet_same (k : String) (v : α) (l : List (String × α)) :
    mapSet k v (mapSet k v l) = mapSet k v l := by
  induction l with
  | nil => simp [mapSet]
  | cons kv rest ih =>
    obtain ⟨k', v'⟩ := kv
    by_cases h : k' = k <;> simp [mapSet, h, ih]

theorem mapDelete_mapDelete_same (k : String) (l : List (String × α)) :
    mapDelete k (mapDelete k l) = mapDelete k l := by
  simp [mapDelete, List.filter_filter]

theorem mapLookup_mapDelete_self (k : String) (l : List (String × α)) :
    mapLookup k (mapDelete k l) = none := by
  induction l with
  | nil => simp [mapDelete, mapLookup]
  | cons kv rest ih =>
    obtain ⟨k', v'⟩ := kv
    by_cases h : k' = k
    · simpa [mapDelete, h] using ih
    · simpa [mapDelete, mapLookup, h] using ih

theorem mapLookup_mapDelete_ne (k k' : String) (l : List (String × α))
    (h : k' ≠ k) : mapLookup k' (mapDelete k l) = mapLookup k' l := by
  induction l with
  | nil => simp [mapDelete, mapLookup]
  | cons kv rest ih =>
    obtain ⟨k₀, v₀⟩ := kv
    by_cases h₀ : k₀ = k
    · subst h₀
      simp only [mapDelete, List.filter_cons] at ih ⊢
      simp [mapLookup, Ne.symm h, ih]
    · simp only [mapDelete, List.filter_cons] at ih ⊢
      simp [mapLookup, h₀, ih]

theorem mapLookup_none_of_forall (k : String) (l : List (String × α))
    (h : ∀ kv ∈ l, kv.1 ≠ k) : mapLookup k l = none := by
  induction l with
  | nil => simp [mapLookup]
  | cons kv rest ih =>
    obtain ⟨k', v'⟩ := kv
    have hk : k' ≠ k := h (k', v') (by simp)
    simp only [mapLookup, if_neg hk]
    exact ih (fun kv hkv => h kv (by simp [hkv]))

/-! ## JavaScript string operations

The handlers use `key.startsWith(prefixString)`, `key.split('/')[1]` and
template concatenation.  These are modelled on the character lists that
underlie Lean strings, which keeps every definition kernel-computable. -/

/-- JavaScript `s.startsWith(p)`. -/
def jsStartsWith (s p : String) : Bool := p.data.isPrefixOf s.data

/-- Split a character list at every occurrence of `sep` (JavaScript
`String.prototype.split` on a one-character separator). -/
def splitChars (sep : Char) : List Char → List (List Char)
  | [] => [[]]
  | c :: rest =>
    match splitChars sep rest with
    | [] => [[]]
    | g :: gs => if c = sep then [] :: g :: gs else (c :: g) :: gs

/-- JavaScript `s.split(sep)` for a one-character separator. -/
def jsSplit (sep : Char) (s : String) : List String :=
  (splitChars sep s.data).map String.mk

/-- `key.split('/')[1]` — the cid part the server extracts from a store key. -/
def cidOf (k : String) : String := (jsSplit '/' k).getD 1 ""

/-- The template literal `` `${m}/${c}` `` used to build meta store keys. -/
def metaKey (m c : String) : String := m ++ "/" ++ c

theorem string_data_inj {a b : String} (h : a.data = b.data) : a = b := by
  cases a; cases b; exact congrArg String.mk h

theorem string_data_append (a b : String) : (a ++ b).data = a.data ++ b.data := by
  cases a; cases b; rfl

theorem isPrefixOf_append_left (a b c : List Char) :
    (a ++ b).isPrefixOf (a ++ c) = b.isPrefixOf c := by
  induction a with
  | nil => rfl
  | cons x xs ih => simp [List.isPrefixOf, ih]

theorem metaKey_data (m c : String) : (metaKey m c).data = m.data ++ '/' :: c.data := by
  simp [metaKey, string_data_append]

theorem isPrefixOf_self_append (a b : List Char) : a.isPrefixOf (a ++ b) = true := by
  induction a with
  | nil => simp [List.isPrefixOf]
  | cons x xs ih => simp [List.isPrefixOf, ih]

/-- Every key built by the `` `${m}/${p}` `` template starts with `m ++ "/"`. -/
theorem jsStartsWith_metaKey (m c : String) :
    jsStartsWith (metaKey m c) (m ++ "/") = true := by
  have h2 : (metaKey m c).data = (m ++ "/").data ++ c.data := by
    simp [metaKey_data, string_data_append]
  rw [jsStartsWith, h2, isPrefixOf_self_append]

/-- The key template is injective in the cid argument. -/
theorem metaKey_inj (m : String) {c c' : String} (h : metaKey m c = metaKey m c') :
    c = c' := by
  have hd := congrArg String.data h
  simp only [metaKey_data] at hd
  have := List.append_cancel_left hd
  exact string_data_inj (by simpa using this)

/-! ## Data model of the server stores

`src/server/index.ts` declares
`metaStore = Map<string, { data: string; parents: string[] }>` and
`carFiles = Map<string, Uint8Array>`.  At runtime `data` can be `null` and
`parents` can be `undefined` (the GET handler guards with
`entry.data !== null` and `if (parents)`), so both are wrapped in `Option`. -/

/-- A value stored in `metaStore`: `{ data, parents }`. -/
structure MetaValue where
  data : Option String
  parents : Option (List String)
deriving DecidableEq, Repr

/-- An element of the JSON array answered by the meta GET handler:
`{ cid, data, parents }`. -/
structure OutEntry where
  cid : String
  data : Option String
  parents : Option (List String)
deriving DecidableEq, Repr

/-- A meta entry as received in a PUT body: `{ cid, data, parents }`. -/
structure MetaEntryIn where
  cid : String
  data : Option String
  parents : Option (List String)
deriving DecidableEq, Repr

/-- The parents list of a stored value; `none` behaves as the empty list
because the handler only touches parents inside `if (parents)`. -/
def parentsL (v : MetaValue) : List String := v.parents.getD []

/-- The store keys deleted for a value's parents:
`metaStore.delete(`${meta}/${p}`)` for each `p`. -/
def parentKeys (m : String) (v : MetaValue) : List String :=
  (parentsL v).map (metaKey m)

/-- Projection of a stored key/value pair onto the response shape
`{ cid: key.split('/')[1], data, parents }`. -/
def projOut (kv : String × MetaValue) : OutEntry :=
  ⟨cidOf kv.1, kv.2.data, kv.2.parents⟩

/-- The server's module-level mutable state: `carFiles` and `metaStore`. -/
structure ServerState where
  carFiles : List (String × List Nat)
  metaStore : List (String × MetaValue)
deriving DecidableEq, Repr

/-! ## The `/fp` GET-with-`meta` handler of `src/server/index.ts`

The handler iterates over `metaStore.entries()` and, for each key under
`` `${meta}/` ``, pushes the parents onto `allParents`, deletes each key
`` `${meta}/${p}` `` from the store, and pushes `{cid, data, parents}`.
Deleting during iteration means an entry removed before the iterator
reaches it is never visited, so the scan carries the set of deleted keys. -/

/-- Accumulator of the metadata-retrieval loop: `allParents`, `entries`,
and the keys deleted from the store so far. -/
structure ScanAcc where
  allParents : List String
  entries : List OutEntry
  deleted : List String
deriving DecidableEq, Repr

/-- One pass of the `for (const [key, value] of metaStore.entries())` loop.
An entry whose key was already deleted is skipped (JavaScript `Map`
iterators do not visit entries removed before they are reached). -/
def getMetaScan (m : String) : List (String × MetaValue) → ScanAcc → ScanAcc
  | [], acc => acc
  | (k, v) :: rest, acc =>
    if acc.deleted.contains k then getMetaScan m rest acc
    else if jsStartsWith k (m ++ "/") then
      getMetaScan m rest
        { allParents := acc.allParents ++ parentsL v,
          entries := acc.entries ++ [projOut (k, v)],
          deleted := acc.deleted ++ parentKeys m v }
    else getMetaScan m rest acc

/-- The JSON array returned by `GET /fp?meta=m`: the pushed entries filtered
by `entry.data !== null && !allParents.includes(entry.cid)`. -/
def getMetaEntries (m : String) (s : List (String × MetaValue)) : List OutEntry :=
  let acc := getMetaScan m s ⟨[], [], []⟩
  acc.entries.filter (fun e => e.data.isSome && !(acc.allParents.contains e.cid))

/-- The meta store left behind by `GET /fp?meta=m`: the original store minus
every key deleted during the scan. -/
def getMetaStore (m : String) (s : List (String × MetaValue)) : List (String × MetaValue) :=
  let acc := getMetaScan m s ⟨[], [], []⟩
  s.filter (fun kv => !(acc.deleted.contains kv.1))

/-- The full effect of `GET /fp?meta=m` on the server state: the response
entries together with the new state (`carFiles` is untouched). -/
def fpGetMeta (m : String) (st : ServerState) : List OutEntry × ServerState :=
  (getMetaEntries m st.metaStore, { st with metaStore := getMetaStore m st.metaStore })

/-! ## The other `/fp` handlers of `src/server/index.ts` -/

/-- `PUT /fp?car=k`: `carFiles.set(car, bytes)`, answers `{ok: true}`. -/
def fpPutCar (k : String) (b : List Nat) (st : ServerState) : ServerState :=
  { st with carFiles := mapSet k b st.carFiles }

/-- `GET /fp?car=k`: the stored bytes, or `none` for the 404 branch. -/
def fpGetCar (k : String) (st : ServerState) : Option (List Nat) :=
  mapLookup k st.carFiles

/-- HTTP status answered by `GET /fp?car=k`: 200 with the bytes, else 404. -/
def fpGetCarStatus (k : String) (st : ServerState) : Nat :=
  match fpGetCar k st with
  | some _ => 200
  | none => 404

/-- `DELETE /fp?car=k`: `carFiles.delete(car)`; always answers `{ok: true}`. -/
def fpDeleteCar (k : String) (st : ServerState) : ServerState :=
  { st with carFiles := mapDelete k st.carFiles }

/-- `DELETE /fp?meta=m`: collect every key starting with `` `${meta}/` ``
into `keysToDelete`, then delete each; always answers `{ok: true}`. -/
def fpDeleteMeta (m : String) (st : ServerState) : ServerState :=
  let keysToDelete := (st.metaStore.map Prod.fst).filter (fun k => jsStartsWith k (m ++ "/"))
  { st with metaStore := keysToDelete.foldl (fun s k => mapDelete k s) st.metaStore }


/-! ## Characterizing the scan

`visitList` names the sublist of store entries the `for` loop actually
visits and processes: an entry is skipped when its key was deleted by an
earlier iteration, and processing an entry under the pointer prefix
deletes the keys of its parents. -/

theorem contains_iff_mem {α} [BEq α] [LawfulBEq α] {l : List α} {a : α} :
    l.contains a = true ↔ a ∈ l := List.elem_iff

/-- The entries visited and processed by the metadata-retrieval loop,
starting from a set of already-deleted keys. -/
def visitList (m : String) : List (String × MetaValue) → List String → List (String × MetaValue)
  | [], _ => []
  | (k, v) :: rest, del =>
    if del.contains k then visitList m rest del
    else if jsStartsWith k (m ++ "/") then
      (k, v) :: visitList m rest (del ++ parentKeys m v)
    else visitList m rest del

theorem visitList_subset (m : String) :
    ∀ (rest : List (String × MetaValue)) (del : List String) (kv : String × MetaValue),
    kv ∈ visitList m rest del → kv ∈ rest := by
  intro rest
  induction rest with
  | nil => intro del kv h; simp [visitList] at h
  | cons kv₀ rest ih =>
    intro del kv h
    obtain ⟨k, v⟩ := kv₀
    by_cases h₁ : del.contains k
    · simp only [visitList, if_pos h₁] at h
      exact List.mem_cons_of_mem _ (ih del kv h)
    · by_cases h₂ : jsStartsWith k (m ++ "/")
      · simp only [visitList, if_neg h₁, if_pos h₂, List.mem_cons] at h
        rcases h with h | h
        · simp [h]
        · exact List.mem_cons_of_mem _ (ih _ kv h)
      · simp only [visitList, if_neg h₁, if_neg h₂] at h
        exact List.mem_cons_of_mem _ (ih del kv h)

/-- The scan's accumulator is determined by the visited list: `allParents`
collects the visited entries' parents, `entries` their projections,
`deleted` the store keys of the visited entries' parents. -/
theorem getMetaScan_eq (m : String) :
    ∀ (rest : List (String × MetaValue)) (acc : ScanAcc),
    getMetaScan m rest acc =
      { allParents := acc.allParents ++
          (visitList m rest acc.deleted).flatMap (fun kv => parentsL kv.2),
        entries := acc.entries ++ (visitList m rest acc.deleted).map projOut,
        deleted := acc.deleted ++
          (visitList m rest acc.deleted).flatMap (fun kv => parentKeys m kv.2) } := by
  intro rest
  induction rest with
  | nil => intro acc; cases acc; simp [getMetaScan, visitList]
  | cons kv rest ih =>
    intro acc
    obtain ⟨k, v⟩ := kv
    by_cases h₁ : k ∈ acc.deleted
    · simp [getMetaScan, visitList, h₁, ih]
    · by_cases h₂ : jsStartsWith k (m ++ "/")
      · simp [getMetaScan, visitList, h₁, h₂, ih]
      · simp [getMetaScan, visitList, h₁, h₂, ih]

/-- Response of the meta GET in terms of the visited list. -/
theorem getMetaEntries_eq (m : String) (s : List (String × MetaValue)) :
    getMetaEntries m s =
      ((visitList m s []).map projOut).filter
        (fun e => e.data.isSome &&
          !(((visitList m s []).flatMap (fun kv => parentsL kv.2)).contains e.cid)) := by
  simp [getMetaEntries, getMetaScan_eq]

/-- Post-state of the meta GET in terms of the visited list. -/
theorem getMetaStore_eq (m : String) (s : List (String × MetaValue)) :
    getMetaStore m s =
      s.filter (fun kv =>
        !(((visitList m s []).flatMap (fun kv => parentKeys m kv.2)).contains kv.1)) := by
  simp [getMetaStore, getMetaScan_eq]

/-- All parent references carried by the entries stored under pointer `m`
(the claim-side notion "the parents list of any stored entry for P"). -/
def allParentsOf (m : String) (s : List (String × MetaValue)) : List String :=
  (s.filter (fun kv => jsStartsWith kv.1 (m ++ "/"))).flatMap (fun kv => parentsL kv.2)

/-- `true` when every entry's parents reference only entries that occur
strictly earlier in the store's insertion order (no parent key of an
entry under the pointer appears among the keys that follow it). -/
def noForwardParentsB (m : String) : List (String × MetaValue) → Bool
  | [] => true
  | (k, v) :: rest =>
    (!(jsStartsWith k (m ++ "/")) ||
      (parentKeys m v).all (fun q => !((rest.map Prod.fst).contains q)))
    && noForwardParentsB m rest

/-- When parents only point backwards, no entry is deleted before the
iterator reaches it, so the loop visits exactly the entries under the
pointer prefix. -/
theorem visitList_no_skip (m : String) :
    ∀ (rest : List (String × MetaValue)) (del : List String),
    noForwardParentsB m rest = true →
    (∀ q ∈ del, q ∉ rest.map Prod.fst) →
    visitList m rest del = rest.filter (fun kv => jsStartsWith kv.1 (m ++ "/")) := by
  intro rest
  induction rest with
  | nil => intro del h hdis; simp [visitList]
  | cons kv rest ih =>
    intro del h hdis
    obtain ⟨k, v⟩ := kv
    have h₁ : ¬ (k ∈ del) := fun hmem => (hdis k hmem) (by simp)
    simp only [noForwardParentsB, Bool.and_eq_true] at h
    obtain ⟨hhead, htail⟩ := h
    by_cases h₂ : jsStartsWith k (m ++ "/")
    · have hpk : ∀ q ∈ parentKeys m v, q ∉ rest.map Prod.fst := by
        rw [h₂] at hhead
        simp only [Bool.not_true, Bool.false_or] at hhead
        intro q hq
        have := (List.all_eq_true.mp hhead) q hq
        simpa [contains_iff_mem] using this
      have hdis' : ∀ q ∈ del ++ parentKeys m v, q ∉ rest.map Prod.fst := by
        intro q hq
        rcases List.mem_append.mp hq with hq | hq
        · exact fun hmem => hdis q hq (List.mem_cons_of_mem _ hmem)
        · exact hpk q hq
      simp [visitList, h₁, h₂, List.filter_cons, ih _ htail hdis']
    · have hdis' : ∀ q ∈ del, q ∉ rest.map Prod.fst :=
        fun q hq hmem => hdis q hq (List.mem_cons_of_mem _ hmem)
      simp [visitList, h₁, h₂, List.filter_cons, ih del htail hdis']

/-- Filtering the visited list by survival in the final store recovers an
order-preserving filter of the whole store: an entry is in the post-read
store iff it is under the pointer and its key was never deleted. -/
theorem visitList_filter_eq (m : String) (D : List String) :
    ∀ (rest : List (String × MetaValue)) (del : List String),
    D = del ++ (visitList m rest del).flatMap (fun kv => parentKeys m kv.2) →
    (visitList m rest del).filter (fun kv => !(D.contains kv.1)) =
      rest.filter (fun kv => jsStartsWith kv.1 (m ++ "/") && !(D.contains kv.1)) := by
  intro rest
  induction rest with
  | nil => intro del hD; simp [visitList]
  | cons kv rest ih =>
    intro del hD
    obtain ⟨k, v⟩ := kv
    by_cases h₁ : k ∈ del
    · have hdel : del.contains k = true := by simpa [contains_iff_mem] using h₁
      have hD' : D = del ++ (visitList m rest del).flatMap (fun kv => parentKeys m kv.2) := by
        simpa [visitList, h₁] using hD
      have hkD : k ∈ D := by rw [hD']; exact List.mem_append_left _ h₁
      simp only [visitList, if_pos hdel]
      rw [ih del hD', List.filter_cons]
      simp [hkD]
    · have hnotdel : ¬(del.contains k = true) := by simpa [contains_iff_mem] using h₁
      by_cases h₂ : jsStartsWith k (m ++ "/")
      · have hD' : D = (del ++ parentKeys m v) ++
            (visitList m rest (del ++ parentKeys m v)).flatMap (fun kv => parentKeys m kv.2) := by
          simpa [visitList, h₁, h₂, List.append_assoc] using hD
        have hrec := ih (del ++ parentKeys m v) hD'
        simp only [visitList, if_neg hnotdel, if_pos h₂]
        rw [List.filter_cons, List.filter_cons, hrec]
        simp [h₂]
      · have hD' : D = del ++ (visitList m rest del).flatMap (fun kv => parentKeys m kv.2) := by
          simpa [visitList, h₁, h₂] using hD
        simp only [visitList, if_neg hnotdel, if_neg h₂]
        rw [ih del hD', List.filter_cons]
        simp [h₂]

/-! ## Claim C1 — read-time pruning of the meta download -/

/-- C1 (amended): when every entry's parents reference only earlier store
entries, `GET /fp?meta=m` returns exactly the entries stored under `m`
whose cid does not appear in the parents list of any stored entry for `m`
(each entry projected to `{cid, data, parents}`); the E1-then-E2 scenario
of the claim is the instance where E2's parent E1 precedes it. -/
theorem claim_C1 (m : String) (s : List (String × MetaValue))
    (hfwd : noForwardParentsB m s = true)
    (hdata : ∀ kv ∈ s, jsStartsWith kv.1 (m ++ "/") = true → kv.2.data.isSome = true) :
    getMetaEntries m s =
      ((s.filter (fun kv => jsStartsWith kv.1 (m ++ "/"))).map projOut).filter
        (fun e => !((allParentsOf m s).contains e.cid)) := by
  rw [getMetaEntries_eq]
  rw [visitList_no_skip m s [] hfwd (by simp)]
  apply List.filter_congr
  intro e he
  rcases List.mem_map.mp he with ⟨kv, hkv, rfl⟩
  have hmem := List.mem_filter.mp hkv
  have hsome := hdata kv hmem.1 hmem.2
  simp [projOut, hsome, allParentsOf]

/-- C1 as frozen is false for general store states: in a store where the
child `p/e2` (parents `[e1]`) precedes its parent `p/e1` (parents `[e0]`),
the scan deletes `p/e1` before visiting it, so `e1`'s parent `e0` is never
collected and the entry `e0` is returned even though its cid appears in
the parents list of the stored entry `p/e1`. -/
theorem claim_C1_counterexample :
    "e0" ∈ allParentsOf "p"
      [("p/e0", ⟨some "d0", some []⟩),
       ("p/e2", ⟨some "d2", some ["e1"]⟩),
       ("p/e1", ⟨some "d1", some ["e0"]⟩)] ∧
    (⟨"e0", some "d0", some []⟩ : OutEntry) ∈
      getMetaEntries "p"
        [("p/e0", ⟨some "d0", some []⟩),
         ("p/e2", ⟨some "d2", some ["e1"]⟩),
         ("p/e1", ⟨some "d1", some ["e0"]⟩)] := by
  decide

/-- Witness for `claim_C1` at the claim's own E1-then-E2 scenario. -/
theorem claim_C1_witness :
    noForwardParentsB "p" [("p/e1", ⟨some "d1", some []⟩), ("p/e2", ⟨some "d2", some ["e1"]⟩)] = true ∧
    getMetaEntries "p" [("p/e1", ⟨some "d1", some []⟩), ("p/e2", ⟨some "d2", some ["e1"]⟩)] =
      [⟨"e2", some "d2", some ["e1"]⟩] := by
  refine ⟨by decide, ?_⟩
  rw [claim_C1 "p" _ (by decide) (by decide)]
  decide

/-! ## Claim C9 — the meta read's side effects on the stores -/

theorem contains_eq_false_iff {α} [BEq α] [LawfulBEq α] {l : List α} {a : α} :
    l.contains a = false ↔ a ∉ l := by
  cases hb : l.contains a <;> simp_all [contains_iff_mem]

theorem visitList_underP (m : String) :
    ∀ (rest : List (String × MetaValue)) (del : List String) (kv : String × MetaValue),
    kv ∈ visitList m rest del → jsStartsWith kv.1 (m ++ "/") = true := by
  intro rest
  induction rest with
  | nil => intro del kv h; simp [visitList] at h
  | cons kv₀ rest ih =>
    intro del kv h
    obtain ⟨k, v⟩ := kv₀
    by_cases h₁ : del.contains k
    · simp only [visitList, if_pos h₁] at h
      exact ih del kv h
    · by_cases h₂ : jsStartsWith k (m ++ "/")
      · simp only [visitList, if_neg h₁, if_pos h₂, List.mem_cons] at h
        rcases h with h | h
        · rw [h]; exact h₂
        · exact ih _ kv h
      · simp only [visitList, if_neg h₁, if_neg h₂] at h
        exact ih del kv h

theorem mapLookup_filter_not_mem (k : String) (dels : List String) (s : List (String × α))
    (h : k ∉ dels) :
    mapLookup k (s.filter (fun kv => !(dels.contains kv.1))) = mapLookup k s := by
  induction s with
  | nil => simp [mapLookup]
  | cons kv rest ih =>
    obtain ⟨k', v⟩ := kv
    rw [List.filter_cons]
    by_cases hd : k' ∈ dels
    · rw [if_neg (by simp [hd])]
      have hk : k' ≠ k := fun he => h (he ▸ hd)
      rw [ih]
      simp only [mapLookup, if_neg hk]
    · rw [if_pos (by simp [hd])]
      simp only [mapLookup]
      by_cases hk : k' = k
      · rw [if_pos hk, if_pos hk]
      · rw [if_neg hk, if_neg hk]; exact ih

theorem mapLookup_filter_mem (k : String) (dels : List String) (s : List (String × α))
    (h : k ∈ dels) :
    mapLookup k (s.filter (fun kv => !(dels.contains kv.1))) = none := by
  apply mapLookup_none_of_forall
  intro kv hkv
  have hp := (List.mem_filter.mp hkv).2
  intro heq
  rw [heq] at hp
  rw [contains_iff_mem.mpr h] at hp
  simp at hp

/-- C9 (amended): the meta GET physically deletes every entry whose id
appears in the parents of an entry it visits (collected in `allParents`),
leaves the content store and all keys outside the pointer prefix
untouched, and afterwards the entries stored under the pointer are
exactly the returned heads. -/
theorem claim_C9 (m : String) (st : ServerState)
    (hkey : ∀ kv ∈ st.metaStore, jsStartsWith kv.1 (m ++ "/") = true →
      kv.1 = metaKey m (cidOf kv.1))
    (hdata : ∀ kv ∈ st.metaStore, jsStartsWith kv.1 (m ++ "/") = true →
      kv.2.data.isSome = true) :
    (fpGetMeta m st).2.carFiles = st.carFiles ∧
    (∀ k, jsStartsWith k (m ++ "/") = false →
      mapLookup k (fpGetMeta m st).2.metaStore = mapLookup k st.metaStore) ∧
    (∀ p ∈ (getMetaScan m st.metaStore ⟨[], [], []⟩).allParents,
      mapLookup (metaKey m p) (fpGetMeta m st).2.metaStore = none) ∧
    (fpGetMeta m st).1 =
      (((fpGetMeta m st).2.metaStore).filter
        (fun kv => jsStartsWith kv.1 (m ++ "/"))).map projOut := by
  have hDmap : (visitList m st.metaStore []).flatMap (fun kv => parentKeys m kv.2) =
      ((visitList m st.metaStore []).flatMap (fun kv => parentsL kv.2)).map (metaKey m) := by
    rw [List.map_flatMap]
    rfl
  refine ⟨rfl, ?_, ?_, ?_⟩
  · intro k hk
    show mapLookup k (getMetaStore m st.metaStore) = mapLookup k st.metaStore
    rw [getMetaStore_eq]
    apply mapLookup_filter_not_mem
    intro hmem
    rw [hDmap] at hmem
    rcases List.mem_map.mp hmem with ⟨p, _, hpe⟩
    rw [← hpe, jsStartsWith_metaKey] at hk
    exact Bool.true_eq_false.mp hk
  · intro p hp
    show mapLookup (metaKey m p) (getMetaStore m st.metaStore) = none
    rw [getMetaStore_eq]
    apply mapLookup_filter_mem
    rw [getMetaScan_eq] at hp
    simp only [List.nil_append] at hp
    rw [hDmap]
    exact List.mem_map_of_mem _ hp
  · show getMetaEntries m st.metaStore =
      ((getMetaStore m st.metaStore).filter (fun kv => jsStartsWith kv.1 (m ++ "/"))).map projOut
    rw [getMetaEntries_eq, getMetaStore_eq, List.filter_map, List.filter_filter]
    have hpoint : ∀ kv ∈ visitList m st.metaStore [],
        ((fun e => e.data.isSome &&
          !(((visitList m st.metaStore []).flatMap (fun kv => parentsL kv.2)).contains e.cid)) ∘ projOut) kv
          = !(((visitList m st.metaStore []).flatMap (fun kv => parentKeys m kv.2)).contains kv.1) := by
      intro kv hkv
      have hin := visitList_subset m st.metaStore [] kv hkv
      have hup := visitList_underP m st.metaStore [] kv hkv
      have hsome := hdata kv hin hup
      have hkeyeq := hkey kv hin hup
      simp only [Function.comp_apply, projOut, hsome, Bool.true_and]
      rw [hDmap]
      by_cases hmem : cidOf kv.1 ∈ (visitList m st.metaStore []).flatMap (fun kv => parentsL kv.2)
      · rw [contains_iff_mem.mpr hmem, contains_iff_mem.mpr (by rw [hkeyeq]; exact List.mem_map_of_mem _ hmem)]
      · have h2 : kv.1 ∉ ((visitList m st.metaStore []).flatMap (fun kv => parentsL kv.2)).map (metaKey m) := by
          intro hc
          rcases List.mem_map.mp hc with ⟨p, hp, hpe⟩
          have hpc : p = cidOf kv.1 := metaKey_inj m (by rw [hpe]; exact hkeyeq)
          exact hmem (hpc ▸ hp)
        rw [contains_eq_false_iff.mpr hmem, contains_eq_false_iff.mpr h2]
    rw [List.filter_congr hpoint,
      visitList_filter_eq m ((visitList m st.metaStore []).flatMap (fun kv => parentKeys m kv.2))
        st.metaStore [] (by simp)]

/-- C9 as frozen is false: in the store where the child `p/e2` precedes
its parent `p/e1`, the read deletes `p/e1` before visiting it, so `e1`'s
parent `p/e0` survives the read even though `e0` appears in the parents
list of the stored entry `p/e1`. -/
theorem claim_C9_counterexample :
    "e0" ∈ allParentsOf "p"
      [("p/e0", MetaValue.mk (some "d0") (some [])),
       ("p/e2", MetaValue.mk (some "d2") (some ["e1"])),
       ("p/e1", MetaValue.mk (some "d1") (some ["e0"]))] ∧
    mapLookup "p/e0"
      (getMetaStore "p"
        [("p/e0", MetaValue.mk (some "d0") (some [])),
         ("p/e2", MetaValue.mk (some "d2") (some ["e1"])),
         ("p/e1", MetaValue.mk (some "d1") (some ["e0"]))]) =
      some (MetaValue.mk (some "d0") (some [])) := by
  decide

/-- Witness for `claim_C9` at a concrete two-head state. -/
theorem claim_C9_witness :
    (fpGetMeta "p" (ServerState.mk [("k", [7])]
        [("p/e1", MetaValue.mk (some "d1") (some [])),
         ("p/e2", MetaValue.mk (some "d2") (some ["e1"]))])).2.carFiles =
      (ServerState.mk [("k", [7])]
        [("p/e1", MetaValue.mk (some "d1") (some [])),
         ("p/e2", MetaValue.mk (some "d2") (some ["e1"]))]).carFiles ∧
    (∀ k, jsStartsWith k ("p" ++ "/") = false →
      mapLookup k (fpGetMeta "p" (ServerState.mk [("k", [7])]
          [("p/e1", MetaValue.mk (some "d1") (some [])),
           ("p/e2", MetaValue.mk (some "d2") (some ["e1"]))])).2.metaStore =
        mapLookup k (ServerState.mk [("k", [7])]
          [("p/e1", MetaValue.mk (some "d1") (some [])),
           ("p/e2", MetaValue.mk (some "d2") (some ["e1"]))]).metaStore) ∧
    (∀ p ∈ (getMetaScan "p" (ServerState.mk [("k", [7])]
        [("p/e1", MetaValue.mk (some "d1") (some [])),
         ("p/e2", MetaValue.mk (some "d2") (some ["e1"]))]).metaStore ⟨[], [], []⟩).allParents,
      mapLookup (metaKey "p" p) (fpGetMeta "p" (ServerState.mk [("k", [7])]
          [("p/e1", MetaValue.mk (some "d1") (some [])),
           ("p/e2", MetaValue.mk (some "d2") (some ["e1"]))])).2.metaStore = none) ∧
    (fpGetMeta "p" (ServerState.mk [("k", [7])]
        [("p/e1", MetaValue.mk (some "d1") (some [])),
         ("p/e2", MetaValue.mk (some "d2") (some ["e1"]))])).1 =
      (((fpGetMeta "p" (ServerState.mk [("k", [7])]
          [("p/e1", MetaValue.mk (some "d1") (some [])),
           ("p/e2", MetaValue.mk (some "d2") (some ["e1"]))])).2.metaStore).filter
        (fun kv => jsStartsWith kv.1 ("p" ++ "/"))).map projOut :=
  claim_C9 "p" _ (by decide) (by decide)

/-! ## The legacy `/fp` PUT-with-`meta` handler of `src/server/fireproof-backend.ts`

For each entry `{data, cid, parents}` of the body (a single object is
wrapped into a one-element array) the handler runs
`metaStore.set(`${meta}/${cid}`, { data, parents })` — and nothing else:
no parent is removed at write time. -/

/-- `Array.isArray(body) ? body : [body]`. -/
def normalizeMetaBody : MetaEntryIn ⊕ List MetaEntryIn → List MetaEntryIn
  | Sum.inl e => [e]
  | Sum.inr es => es

/-- The legacy `PUT /fp?meta=m` handler (lines 882–899 of
`fireproof-backend.ts`): store each entry under `` `${meta}/${cid}` ``. -/
def putMetaLegacy (m : String) (entries : List MetaEntryIn)
    (s : List (String × MetaValue)) : List (String × MetaValue) :=
  entries.foldl (fun st e => mapSet (metaKey m e.cid) ⟨e.data, e.parents⟩ st) s

theorem mapLookup_putMetaLegacy_ne (m k : String) :
    ∀ (entries : List MetaEntryIn) (s : List (String × MetaValue)),
    (∀ e ∈ entries, k ≠ metaKey m e.cid) →
    mapLookup k (putMetaLegacy m entries s) = mapLookup k s := by
  intro entries
  induction entries with
  | nil => intro s h; rfl
  | cons e rest ih =>
    intro s h
    show mapLookup k (putMetaLegacy m rest (mapSet (metaKey m e.cid) ⟨e.data, e.parents⟩ s)) =
      mapLookup k s
    rw [ih _ (fun e' he' => h e' (List.mem_cons_of_mem _ he'))]
    exact mapLookup_mapSet_ne _ _ _ _ (h e (by simp))

theorem mapDelete_of_absent (k : String) (s : List (String × α))
    (h : mapLookup k s = none) : mapDelete k s = s := by
  induction s with
  | nil => rfl
  | cons kv rest ih =>
    obtain ⟨k', v⟩ := kv
    simp only [mapLookup] at h
    by_cases hk : k' = k
    · simp [hk] at h
    · simp only [if_neg hk] at h
      simp only [mapDelete, List.filter_cons]
      rw [if_pos (by simp [hk])]
      have := ih h
      simp only [mapDelete] at this
      rw [this]

/-! ## Claim C3 — no write-time pruning -/

/-- C3 (amended): the put-meta write performs no pruning at all: every key
other than the keys being written — in particular every parent key that
differs from them — is left untouched, and the pruning that does exist
(read-time deletion) treats an already-absent parent as a no-op, because
`map.delete` of an absent key leaves the store unchanged. -/
theorem claim_C3 (m k : String) (entries : List MetaEntryIn)
    (s : List (String × MetaValue))
    (h : ∀ e ∈ entries, k ≠ metaKey m e.cid) :
    mapLookup k (putMetaLegacy m entries s) = mapLookup k s ∧
    (∀ k', mapLookup k' s = none → mapDelete k' s = s) :=
  ⟨mapLookup_putMetaLegacy_ne m k entries s h,
   fun k' hk' => mapDelete_of_absent k' s hk'⟩

/-- C3 as frozen is false: writing `{cid: c2, parents: [c1]}` to pointer
`p` leaves the parent entry `p/c1` in the live set — the write operation
does not remove it. -/
theorem claim_C3_counterexample :
    "c1" ∈ (([⟨"c2", some "d2", some ["c1"]⟩] : List MetaEntryIn).flatMap
      (fun e => e.parents.getD [])) ∧
    mapLookup (metaKey "p" "c1")
      (putMetaLegacy "p" [⟨"c2", some "d2", some ["c1"]⟩]
        [(metaKey "p" "c1", ⟨some "d1", some []⟩)]) =
      some ⟨some "d1", some []⟩ := by
  decide

/-- Witness for `claim_C3`. -/
theorem claim_C3_witness :
    mapLookup "p/c1"
      (putMetaLegacy "p" [⟨"c2", some "d2", some ["c1"]⟩]
        [("p/c1", ⟨some "d1", some []⟩)]) =
      mapLookup "p/c1" [("p/c1", ⟨some "d1", some []⟩)] ∧
    (∀ k', mapLookup k' [(("p/c1" : String), (⟨some "d1", some []⟩ : MetaValue))] = none →
      mapDelete k' [(("p/c1" : String), (⟨some "d1", some []⟩ : MetaValue))] =
        [(("p/c1" : String), (⟨some "d1", some []⟩ : MetaValue))]) :=
  claim_C3 "p" "p/c1" [⟨"c2", some "d2", some ["c1"]⟩]
    [("p/c1", ⟨some "d1", some []⟩)] (by decide)

/-! ## Claim C2 — conflict preservation at read time -/

/-- C2: write two well-formed entries `E1 = {c1, d1, ps1}` then
`E2 = {c2, d2, ps2}` to pointer `m` (distinct cids, neither listing the
other — nor itself — among its parents), and the subsequent meta read
returns both heads, in write order; neither concurrent head is dropped. -/
theorem claim_C2 (m c1 c2 d1 d2 : String) (ps1 ps2 : List String)
    (hne : c1 ≠ c2)
    (h12 : c2 ∉ ps1) (h21 : c1 ∉ ps2) (h11 : c1 ∉ ps1) (h22 : c2 ∉ ps2)
    (hcid1 : cidOf (metaKey m c1) = c1) (hcid2 : cidOf (metaKey m c2) = c2) :
    getMetaEntries m
      (putMetaLegacy m [⟨c2, some d2, some ps2⟩]
        (putMetaLegacy m [⟨c1, some d1, some ps1⟩] [])) =
      [⟨c1, some d1, some ps1⟩, ⟨c2, some d2, some ps2⟩] := by
  have hk : metaKey m c1 ≠ metaKey m c2 := fun h => hne (metaKey_inj m h)
  have hstore : putMetaLegacy m [⟨c2, some d2, some ps2⟩]
      (putMetaLegacy m [⟨c1, some d1, some ps1⟩] []) =
      [(metaKey m c1, ⟨some d1, some ps1⟩), (metaKey m c2, ⟨some d2, some ps2⟩)] := by
    simp [putMetaLegacy, mapSet, hk]
  rw [hstore, getMetaEntries_eq]
  have hnc : metaKey m c2 ∉ parentKeys m (⟨some d1, some ps1⟩ : MetaValue) := by
    intro hc
    simp only [parentKeys, parentsL, Option.getD_some] at hc
    rcases List.mem_map.mp hc with ⟨p, hp, hpe⟩
    exact h12 ((metaKey_inj m hpe) ▸ hp)
  have hV : visitList m
      [(metaKey m c1, ⟨some d1, some ps1⟩), (metaKey m c2, ⟨some d2, some ps2⟩)] [] =
      [(metaKey m c1, ⟨some d1, some ps1⟩), (metaKey m c2, ⟨some d2, some ps2⟩)] := by
    simp [visitList, jsStartsWith_metaKey, hnc]
  rw [hV]
  simp [projOut, parentsL, hcid1, hcid2, h11, h21, h12, h22]

/-- Witness for `claim_C2`. -/
theorem claim_C2_witness :
    getMetaEntries "p"
      (putMetaLegacy "p" [⟨"b", some "y", some []⟩]
        (putMetaLegacy "p" [⟨"a", some "x", some []⟩] [])) =
      [⟨"a", some "x", some []⟩, ⟨"b", some "y", some []⟩] :=
  claim_C2 "p" "a" "b" "x" "y" [] [] (by decide) (by decide) (by decide)
    (by decide) (by decide) (by decide) (by decide)

/-! ## The client gateway (`src/connect/gateway.ts`)

`HttpSerdeGateway` builds requests from URL parameters and classifies
response statuses.  `url.getParam(X) || default` uses JavaScript
truthiness, so an empty string also falls back to the default. -/

/-- JavaScript `x || d` on an optional string (empty string is falsy). -/
def jsOrDefault (o : Option String) (d : String) : String :=
  match o with
  | some s => if s = "" then d else s
  | none => d

/-- `fetch` `Response.ok`: status in the range 200–299. -/
def responseOk (status : Nat) : Bool := 200 ≤ status && status < 300

/-- The JSON body of the gateway's meta upload: `{ cid, data, parents }`. -/
structure PutMetaWire where
  cid : String
  data : String
  parents : List String
deriving DecidableEq, Repr

/-- A meta envelope as the gateway receives it: the serialized payload
(`JSON.stringify(envelope.payload)`) together with the parent set the
payload events carry (the spec's "parent set carried by the envelope";
the gateway code never reads it). -/
structure FPEnvelopeMetaM where
  payloadJson : String
  payloadParents : List String
deriving DecidableEq, Repr

/-- The meta branch of `HttpSerdeGateway.put`: pointer name from
`PARAM.NAME` (default `"main"`), cid from `PARAM.KEY` (default the
cleaned URL), `data` the serialized payload — and `parents: []`. -/
def httpPutMetaRequest (urlName urlKey : Option String) (cleanedUrl : String)
    (env : FPEnvelopeMetaM) : String × PutMetaWire :=
  (jsOrDefault urlName "main",
   { cid := jsOrDefault urlKey cleanedUrl, data := env.payloadJson, parents := [] })

/-- The uploaded wire record as the server-side PUT body entry. -/
def wireToEntry (w : PutMetaWire) : MetaEntryIn :=
  ⟨w.cid, some w.data, some w.parents⟩

/-! ## Claim C4 — shape of the gateway's meta upload -/

/-- C4 (amended): the gateway's meta put constructs the wire record with
the cid from the URL's key parameter, the serialized payload as `data`,
and an always-empty `parents` list (the envelope's parent set is not
propagated); it is scoped to the pointer name from the URL (default
`"main"`), and the server stores it under that pointer and cid. -/
theorem claim_C4 (urlName urlKey : Option String) (cleanedUrl : String)
    (env : FPEnvelopeMetaM) (s : List (String × MetaValue)) :
    (httpPutMetaRequest urlName urlKey cleanedUrl env).1 = jsOrDefault urlName "main" ∧
    (httpPutMetaRequest urlName urlKey cleanedUrl env).2.cid = jsOrDefault urlKey cleanedUrl ∧
    (httpPutMetaRequest urlName urlKey cleanedUrl env).2.data = env.payloadJson ∧
    (httpPutMetaRequest urlName urlKey cleanedUrl env).2.parents = [] ∧
    mapLookup
      (metaKey (httpPutMetaRequest urlName urlKey cleanedUrl env).1
        (httpPutMetaRequest urlName urlKey cleanedUrl env).2.cid)
      (putMetaLegacy (httpPutMetaRequest urlName urlKey cleanedUrl env).1
        [wireToEntry (httpPutMetaRequest urlName urlKey cleanedUrl env).2] s) =
      some ⟨some env.payloadJson, some []⟩ := by
  refine ⟨rfl, rfl, rfl, rfl, ?_⟩
  show mapLookup
      (metaKey (httpPutMetaRequest urlName urlKey cleanedUrl env).1
        (httpPutMetaRequest urlName urlKey cleanedUrl env).2.cid)
      (mapSet
        (metaKey (httpPutMetaRequest urlName urlKey cleanedUrl env).1
          (httpPutMetaRequest urlName urlKey cleanedUrl env).2.cid)
        ⟨some env.payloadJson, some []⟩ s) =
    some ⟨some env.payloadJson, some []⟩
  rw [mapLookup_mapSet_self]

/-- C4 as frozen is false: an envelope carrying the nonempty parent set
`["parentCid"]` is uploaded with `parents = []` — the wire record does
not contain the parent set carried by the envelope. -/
theorem claim_C4_counterexample :
    (FPEnvelopeMetaM.mk "{}" ["parentCid"]).payloadParents = ["parentCid"] ∧
    (httpPutMetaRequest (some "ptr") (some "cid1") "cleaned"
      (FPEnvelopeMetaM.mk "{}" ["parentCid"])).2.parents = [] := by
  decide

/-! ## Claim C5 — content immutability -/

/-- C5: after `PUT /fp?car=k` with bytes `b`, `GET /fp?car=k` returns
exactly `b`; re-putting the identical bytes leaves the state unchanged;
and operations on a different key (put or delete) do not disturb `k`. -/
theorem claim_C5 (k k2 : String) (b b2 : List Nat) (st : ServerState)
    (hne : k2 ≠ k) :
    fpGetCar k (fpPutCar k b st) = some b ∧
    fpPutCar k b (fpPutCar k b st) = fpPutCar k b st ∧
    fpGetCar k (fpPutCar k2 b2 (fpPutCar k b st)) = some b ∧
    fpGetCar k (fpDeleteCar k2 (fpPutCar k b st)) = some b := by
  refine ⟨?_, ?_, ?_, ?_⟩
  · show mapLookup k (mapSet k b st.carFiles) = some b
    rw [mapLookup_mapSet_self]
  · show ServerState.mk (mapSet k b (mapSet k b st.carFiles)) st.metaStore =
      ServerState.mk (mapSet k b st.carFiles) st.metaStore
    rw [mapSet_mapSet_same]
  · show mapLookup k (mapSet k2 b2 (mapSet k b st.carFiles)) = some b
    rw [mapLookup_mapSet_ne _ _ _ _ (Ne.symm hne), mapLookup_mapSet_self]
  · show mapLookup k (mapDelete k2 (mapSet k b st.carFiles)) = some b
    rw [mapLookup_mapDelete_ne _ _ _ (Ne.symm hne), mapLookup_mapSet_self]

/-- Witness for `claim_C5`. -/
theorem claim_C5_witness :
    fpGetCar "a" (fpPutCar "a" [1] (ServerState.mk [] [])) = some [1] ∧
    fpPutCar "a" [1] (fpPutCar "a" [1] (ServerState.mk [] [])) =
      fpPutCar "a" [1] (ServerState.mk [] []) ∧
    fpGetCar "a" (fpPutCar "b" [2] (fpPutCar "a" [1] (ServerState.mk [] []))) = some [1] ∧
    fpGetCar "a" (fpDeleteCar "b" (fpPutCar "a" [1] (ServerState.mk [] []))) = some [1] :=
  claim_C5 "a" "b" [1] [2] (ServerState.mk [] []) (by decide)

/-! ## Claim C6 — idempotent delete -/

/-- Success classification of `HttpSerdeGateway.delete`: the operation
fails only when `!response.ok && response.status !== 404`. -/
def gatewayDeleteSuccess (status : Nat) : Bool :=
  responseOk status || status == 404

theorem foldl_mapDelete_eq_filter (ks : List String) :
    ∀ (s : List (String × α)),
    ks.foldl (fun s k => mapDelete k s) s = s.filter (fun kv => !(ks.contains kv.1)) := by
  induction ks with
  | nil => intro s; simp
  | cons k ks ih =>
    intro s
    simp only [List.foldl_cons]
    rw [ih (mapDelete k s)]
    simp only [mapDelete, List.filter_filter]
    apply List.filter_congr
    intro kv _
    by_cases h1 : kv.1 = k <;> by_cases h2 : kv.1 ∈ ks <;> simp [h1, h2]

theorem fpDeleteMeta_of_no_underP (m : String) (st : ServerState)
    (h : ∀ kv ∈ st.metaStore, jsStartsWith kv.1 (m ++ "/") = false) :
    fpDeleteMeta m st = st := by
  have hnil : ((st.metaStore.map Prod.fst).filter
      (fun k => jsStartsWith k (m ++ "/"))) = [] := by
    rw [List.filter_eq_nil_iff]
    intro a ha
    rcases List.mem_map.mp ha with ⟨kv, hkv, rfl⟩
    rw [h kv hkv]
    simp
  simp only [fpDeleteMeta, hnil, List.foldl_nil]

theorem fpDeleteMeta_no_underP (m : String) (st : ServerState) :
    ∀ kv ∈ (fpDeleteMeta m st).metaStore, jsStartsWith kv.1 (m ++ "/") = false := by
  intro kv hkv
  simp only [fpDeleteMeta, foldl_mapDelete_eq_filter] at hkv
  rcases List.mem_filter.mp hkv with ⟨hmem, hcon⟩
  cases hx : jsStartsWith kv.1 (m ++ "/") with
  | false => rfl
  | true =>
    have hks : kv.1 ∈ (st.metaStore.map Prod.fst).filter
        (fun k => jsStartsWith k (m ++ "/")) :=
      List.mem_filter.mpr ⟨List.mem_map_of_mem _ hmem, hx⟩
    rw [contains_iff_mem.mpr hks] at hcon
    simp at hcon

/-- C6: deleting a content key or a pointer's metadata is idempotent and
leaves the key(s) absent; deleting an absent key still succeeds (the
handlers answer `{ok: true}` unconditionally and `map.delete` of an
absent key is a no-op); at the gateway, a remote 404 on delete is
classified as success. -/
theorem claim_C6 (k m : String) (st : ServerState) :
    fpDeleteCar k (fpDeleteCar k st) = fpDeleteCar k st ∧
    fpGetCar k (fpDeleteCar k st) = none ∧
    (∀ k', mapLookup k' st.carFiles = none →
      (fpDeleteCar k' st).carFiles = st.carFiles) ∧
    fpDeleteMeta m (fpDeleteMeta m st) = fpDeleteMeta m st ∧
    (∀ k', jsStartsWith k' (m ++ "/") = true →
      mapLookup k' (fpDeleteMeta m st).metaStore = none) ∧
    gatewayDeleteSuccess 404 = true ∧
    (∀ status, responseOk status = true → gatewayDeleteSuccess status = true) := by
  refine ⟨?_, ?_, ?_, ?_, ?_, by decide, ?_⟩
  · show ServerState.mk (mapDelete k (mapDelete k st.carFiles)) st.metaStore =
      ServerState.mk (mapDelete k st.carFiles) st.metaStore
    rw [mapDelete_mapDelete_same]
  · show mapLookup k (mapDelete k st.carFiles) = none
    rw [mapLookup_mapDelete_self]
  · intro k' h
    show mapDelete k' st.carFiles = st.carFiles
    exact mapDelete_of_absent k' st.carFiles h
  · exact fpDeleteMeta_of_no_underP m (fpDeleteMeta m st) (fpDeleteMeta_no_underP m st)
  · intro k' hk'
    apply mapLookup_none_of_forall
    intro kv hkv
    intro he
    have := fpDeleteMeta_no_underP m st kv hkv
    rw [he, hk'] at this
    exact Bool.true_eq_false.mp this
  · intro status h
    simp [gatewayDeleteSuccess, h]

/-- Witness for `claim_C6`. -/
theorem claim_C6_witness :
    fpDeleteCar "a" (fpDeleteCar "a" (ServerState.mk [("a", [1])] [("p/x", ⟨some "d", some []⟩)])) =
      fpDeleteCar "a" (ServerState.mk [("a", [1])] [("p/x", ⟨some "d", some []⟩)]) ∧
    fpGetCar "a" (fpDeleteCar "a" (ServerState.mk [("a", [1])] [("p/x", ⟨some "d", some []⟩)])) = none ∧
    (∀ k', mapLookup k' (ServerState.mk [("a", [1])] [("p/x", ⟨some "d", some []⟩)]).carFiles = none →
      (fpDeleteCar k' (ServerState.mk [("a", [1])] [("p/x", ⟨some "d", some []⟩)])).carFiles =
        (ServerState.mk [("a", [1])] [("p/x", ⟨some "d", some []⟩)]).carFiles) ∧
    fpDeleteMeta "p" (fpDeleteMeta "p" (ServerState.mk [("a", [1])] [("p/x", ⟨some "d", some []⟩)])) =
      fpDeleteMeta "p" (ServerState.mk [("a", [1])] [("p/x", ⟨some "d", some []⟩)]) ∧
    (∀ k', jsStartsWith k' ("p" ++ "/") = true →
      mapLookup k' (fpDeleteMeta "p" (ServerState.mk [("a", [1])] [("p/x", ⟨some "d", some []⟩)])).metaStore = none) ∧
    gatewayDeleteSuccess 404 = true ∧
    (∀ status, responseOk status = true → gatewayDeleteSuccess status = true) :=
  claim_C6 "a" "p" (ServerState.mk [("a", [1])] [("p/x", ⟨some "d", some []⟩)])

/-! ## Claim C7 — NotFound on missing content -/

/-- The failure values an `HttpSerdeGateway` operation can produce: the
typed `NotFoundError`, or the generic thrown-and-caught transport error. -/
inductive GwError where
  | notFound
  | httpError (status : Nat)
deriving DecidableEq, Repr

/-- The status classification of `HttpSerdeGateway.get` for the car
branch: a non-ok response with status 404 becomes the typed NotFound
failure result; any other non-ok status raises the generic error, which
the surrounding catch converts to a failure result. -/
def gatewayGetCarResult (status : Nat) (body : List Nat) : Except GwError (List Nat) :=
  if responseOk status then Except.ok body
  else if status == 404 then Except.error GwError.notFound
  else Except.error (GwError.httpError status)

/-- C7: for an absent content key the server answers 404, the gateway
turns exactly a 404 into the `NotFound` failure result, and every other
non-2xx status becomes the generic transport failure — in both cases a
returned failure value, not an exception. -/
theorem claim_C7 (k : String) (st : ServerState)
    (h : mapLookup k st.carFiles = none) :
    fpGetCarStatus k st = 404 ∧
    (∀ b, gatewayGetCarResult (fpGetCarStatus k st) b = Except.error GwError.notFound) ∧
    (∀ status b, responseOk status = false → status ≠ 404 →
      gatewayGetCarResult status b = Except.error (GwError.httpError status)) := by
  have hs : fpGetCarStatus k st = 404 := by
    simp [fpGetCarStatus, fpGetCar, h]
  refine ⟨hs, ?_, ?_⟩
  · intro b
    rw [hs]
    have h404 : responseOk 404 = false := by decide
    simp [gatewayGetCarResult, h404]
  · intro status b h1 h2
    simp [gatewayGetCarResult, h1, h2]

/-- Witness for `claim_C7`. -/
theorem claim_C7_witness :
    fpGetCarStatus "missing" (ServerState.mk [] []) = 404 ∧
    (∀ b, gatewayGetCarResult (fpGetCarStatus "missing" (ServerState.mk [] [])) b =
      Except.error GwError.notFound) ∧
    (∀ status b, responseOk status = false → status ≠ 404 →
      gatewayGetCarResult status b = Except.error (GwError.httpError status)) :=
  claim_C7 "missing" (ServerState.mk [] []) (by decide)

/-! ## The message dispatcher of `src/server/fireproof-backend.ts`

`SimpleMsgDispatcher.dispatch` switches on `msg.type` over nine known
request types; everything else is answered with status 400.  The meta
handlers key the shared `metaStore` with `` `main/${cid}` `` — no
pointer name from the message is ever consulted. -/

/-- A connection id pair (`QSId`). -/
structure QSIdM where
  reqId : String
  resId : String
deriving DecidableEq, Repr

/-- The `meta` field of put/del-meta messages; its `metas` array can be
absent (`meta && meta.metas`). -/
structure MetaParam where
  metas : Option (List MetaEntryIn)
deriving DecidableEq, Repr

/-- A control message: the fields the handlers read (`type`, `tid`,
`conn`, `meta`, `urlParam.key`) plus the pointer name a client could
carry in the message — which no handler reads. -/
structure Msg where
  type : String
  tid : String
  conn : Option QSIdM
  meta : Option MetaParam
  urlParamKey : Option String
  name : Option String
deriving DecidableEq, Repr

/-- `meta && meta.metas`. -/
def metasOf (msg : Msg) : Option (List MetaEntryIn) :=
  msg.meta.bind (fun mp => mp.metas)

/-- The dispatcher-relevant mutable state: the shared `metaStore` and the
stream of fresh ids `sthis.nextId` will hand out. -/
structure DispatchState where
  metaStore : List (String × MetaValue)
  supply : List String
deriving DecidableEq, Repr

/-- The JSON bodies the dispatcher can answer with. -/
inductive DispatchBody where
  | resGestalt (tid : String)
  | resOpen (tid reqId resId : String)
  | resPutMeta (tid : String)
  | resGetMeta (tid : String) (metas : List OutEntry)
  | resDelMeta (tid : String)
  | resPutData (tid signedUrl : String)
  | resGetData (tid : String)
  | resDelData (tid : String)
  | errorBody (msg : String)
deriving DecidableEq, Repr

/-- An HTTP response from the dispatcher. -/
structure DispatchResponse where
  status : Nat
  body : DispatchBody
deriving DecidableEq, Repr

/-- `handleGestalt`: a fixed capability descriptor echoing the tid. -/
def handleGestalt (msg : Msg) (st : DispatchState) : DispatchResponse × DispatchState :=
  (⟨200, .resGestalt msg.tid⟩, st)

/-- `handleOpen`: `reqId: msg.conn?.reqId || nextId`, `resId: nextId`
(JavaScript `||`, so an empty `reqId` also falls back to a fresh id). -/
def handleOpen (msg : Msg) (st : DispatchState) : DispatchResponse × DispatchState :=
  match msg.conn with
  | some c =>
    if c.reqId = "" then
      (⟨200, .resOpen msg.tid (st.supply.headD "") ((st.supply.drop 1).headD "")⟩,
       { st with supply := st.supply.drop 2 })
    else
      (⟨200, .resOpen msg.tid c.reqId (st.supply.headD "")⟩,
       { st with supply := st.supply.drop 1 })
  | none =>
    (⟨200, .resOpen msg.tid (st.supply.headD "") ((st.supply.drop 1).headD "")⟩,
     { st with supply := st.supply.drop 2 })

/-- `handlePutMeta`: store each entry of `meta.metas` under
`` `main/${cid}` ``, then acknowledge. -/
def handlePutMeta (msg : Msg) (st : DispatchState) : DispatchResponse × DispatchState :=
  match metasOf msg with
  | some ms =>
    let newStore := ms.foldl
      (fun s e => mapSet (metaKey "main" e.cid) ⟨e.data, e.parents⟩ s) st.metaStore
    (⟨200, .resPutMeta msg.tid⟩, { st with metaStore := newStore })
  | none => (⟨200, .resPutMeta msg.tid⟩, st)

/-- The entries `handleGetMeta` collects: every stored pair whose key
starts with `'main/'`, projected to `{cid, data, parents}`. -/
def handleGetMetaEntries (s : List (String × MetaValue)) : List OutEntry :=
  (s.filter (fun kv => jsStartsWith kv.1 "main/")).map projOut

/-- `handleGetMeta`: answer all entries under `'main/'`; no state change. -/
def handleGetMeta (msg : Msg) (st : DispatchState) : DispatchResponse × DispatchState :=
  (⟨200, .resGetMeta msg.tid (handleGetMetaEntries st.metaStore)⟩, st)

/-- `handleDelMeta`: delete `` `main/${cid}` `` for each entry of
`meta.metas`, then acknowledge. -/
def handleDelMeta (msg : Msg) (st : DispatchState) : DispatchResponse × DispatchState :=
  match metasOf msg with
  | some ms =>
    let newStore := ms.foldl
      (fun s e => mapDelete (metaKey "main" e.cid) s) st.metaStore
    (⟨200, .resDelMeta msg.tid⟩, { st with metaStore := newStore })
  | none => (⟨200, .resDelMeta msg.tid⟩, st)

/-- `handlePutData`: answer a signed upload URL built from
`msg.urlParam?.key || 'unknown'`; no state change. -/
def handlePutData (msg : Msg) (st : DispatchState) : DispatchResponse × DispatchState :=
  (⟨200, .resPutData msg.tid
    ("http://localhost:3001/upload/" ++ jsOrDefault msg.urlParamKey "unknown")⟩, st)

/-- `handleGetData`: always answers `data: null`; no state change. -/
def handleGetData (msg : Msg) (st : DispatchState) : DispatchResponse × DispatchState :=
  (⟨200, .resGetData msg.tid⟩, st)

/-- `handleDelData`: always acknowledges; no state change. -/
def handleDelData (msg : Msg) (st : DispatchState) : DispatchResponse × DispatchState :=
  (⟨200, .resDelData msg.tid⟩, st)

/-- `handleBindGetMeta`: same data as `handleGetMeta`, framed as a
`resGetMeta`; no state change. -/
def handleBindGetMeta (msg : Msg) (st : DispatchState) : DispatchResponse × DispatchState :=
  (⟨200, .resGetMeta msg.tid (handleGetMetaEntries st.metaStore)⟩, st)

/-- The nine request types of the dispatcher's `switch`. -/
def knownTypes : List String :=
  ["reqGestalt", "reqOpen", "reqPutMeta", "reqGetMeta", "reqDelMeta",
   "reqPutData", "reqGetData", "reqDelData", "bindGetMeta"]

/-- `SimpleMsgDispatcher.dispatch`: route on `msg.type`; an unknown type
is answered with status 400 and the body `{error: 'Unknown message type'}`. -/
def dispatch (msg : Msg) (st : DispatchState) : DispatchResponse × DispatchState :=
  if msg.type = "reqGestalt" then handleGestalt msg st
  else if msg.type = "reqOpen" then handleOpen msg st
  else if msg.type = "reqPutMeta" then handlePutMeta msg st
  else if msg.type = "reqGetMeta" then handleGetMeta msg st
  else if msg.type = "reqDelMeta" then handleDelMeta msg st
  else if msg.type = "reqPutData" then handlePutData msg st
  else if msg.type = "reqGetData" then handleGetData msg st
  else if msg.type = "reqDelData" then handleDelData msg st
  else if msg.type = "bindGetMeta" then handleBindGetMeta msg st
  else (⟨400, .errorBody "Unknown message type"⟩, st)

/-! ## Claim C8 — unknown message tolerance -/

/-- C8: a message whose type is none of the nine known request types is
answered with status 400 (a client error, not an exception), the
dispatcher state is untouched, and any subsequent message is dispatched
exactly as if the unknown message had never arrived. -/
theorem claim_C8 (msg : Msg) (st : DispatchState) (h : msg.type ∉ knownTypes) :
    (dispatch msg st).1 = ⟨400, .errorBody "Unknown message type"⟩ ∧
    (dispatch msg st).2 = st ∧
    (∀ msg2 : Msg, dispatch msg2 (dispatch msg st).2 = dispatch msg2 st) := by
  simp only [knownTypes, List.mem_cons, List.not_mem_nil, or_false, not_or] at h
  obtain ⟨h1, h2, h3, h4, h5, h6, h7, h8, h9⟩ := h
  have hd : dispatch msg st = (⟨400, .errorBody "Unknown message type"⟩, st) := by
    simp [dispatch, h1, h2, h3, h4, h5, h6, h7, h8, h9]
  exact ⟨by rw [hd], by rw [hd], fun msg2 => by rw [hd]⟩

/-- Witness for `claim_C8`. -/
theorem claim_C8_witness :
    (dispatch (Msg.mk "bogusType" "t9" none none none none) (DispatchState.mk [] [])).1 =
      ⟨400, .errorBody "Unknown message type"⟩ ∧
    (dispatch (Msg.mk "bogusType" "t9" none none none none) (DispatchState.mk [] [])).2 =
      DispatchState.mk [] [] ∧
    (∀ msg2 : Msg, dispatch msg2
        (dispatch (Msg.mk "bogusType" "t9" none none none none) (DispatchState.mk [] [])).2 =
      dispatch msg2 (DispatchState.mk [] [])) :=
  claim_C8 (Msg.mk "bogusType" "t9" none none none none) (DispatchState.mk [] []) (by decide)

/-! ## Claim C10 — the dispatcher's single `main` namespace -/

theorem jsStartsWith_mainKey (c : String) :
    jsStartsWith (metaKey "main" c) "main/" = true := by
  have h := jsStartsWith_metaKey "main" c
  have he : ("main" ++ "/" : String) = "main/" := by decide
  rw [he] at h
  exact h

theorem mem_mapSet (k : String) (v : α) (s : List (String × α)) (kv : String × α)
    (h : kv ∈ mapSet k v s) : kv = (k, v) ∨ kv ∈ s := by
  induction s with
  | nil => simpa [mapSet] using h
  | cons kv0 rest ih =>
    obtain ⟨k0, v0⟩ := kv0
    by_cases hk : k0 = k
    · rw [mapSet, if_pos hk] at h
      rcases List.mem_cons.mp h with h2 | h2
      · exact Or.inl h2
      · exact Or.inr (List.mem_cons_of_mem _ h2)
    · rw [mapSet, if_neg hk] at h
      rcases List.mem_cons.mp h with h2 | h2
      · exact Or.inr (h2 ▸ List.mem_cons_self _ _)
      · rcases ih h2 with h3 | h3
        · exact Or.inl h3
        · exact Or.inr (List.mem_cons_of_mem _ h3)

theorem mem_foldl_putMain :
    ∀ (ms : List MetaEntryIn) (s : List (String × MetaValue)) (kv : String × MetaValue),
    kv ∈ ms.foldl (fun s e => mapSet (metaKey "main" e.cid) ⟨e.data, e.parents⟩ s) s →
    kv ∈ s ∨ jsStartsWith kv.1 "main/" = true := by
  intro ms
  induction ms with
  | nil => intro s kv h; exact Or.inl h
  | cons e rest ih =>
    intro s kv h
    simp only [List.foldl_cons] at h
    rcases ih _ kv h with h2 | h2
    · rcases mem_mapSet _ _ _ _ h2 with h3 | h3
      · right
        subst h3
        exact jsStartsWith_mainKey e.cid
      · exact Or.inl h3
    · exact Or.inr h2

theorem mem_foldl_delMain :
    ∀ (ms : List MetaEntryIn) (s : List (String × MetaValue)) (kv : String × MetaValue),
    kv ∈ ms.foldl (fun s e => mapDelete (metaKey "main" e.cid) s) s → kv ∈ s := by
  intro ms
  induction ms with
  | nil => intro s kv h; exact h
  | cons e rest ih =>
    intro s kv h
    simp only [List.foldl_cons] at h
    have h2 := ih _ kv h
    simp only [mapDelete] at h2
    exact (List.mem_filter.mp h2).1

theorem handleOpen_metaStore (msg : Msg) (st : DispatchState) :
    (handleOpen msg st).2.metaStore = st.metaStore := by
  rcases hc : msg.conn with _ | c
  · simp [handleOpen, hc]
  · by_cases h : c.reqId = "" <;> simp [handleOpen, hc, h]

/-- C10: the dispatcher ignores any pointer name carried in a message
(two messages differing only in that field dispatch identically), every
key it ever writes lives under the single `'main/'` namespace, and a
probe written via `reqPutMeta` with one ostensible pointer name is
returned by `reqGetMeta` with a different one — all control-message meta
traffic shares one live set. -/
theorem claim_C10 :
    (∀ (msg : Msg) (st : DispatchState) (n : Option String),
      dispatch { msg with name := n } st = dispatch msg st) ∧
    (∀ (msg : Msg) (st : DispatchState) (kv : String × MetaValue),
      kv ∈ (dispatch msg st).2.metaStore →
      kv ∈ st.metaStore ∨ jsStartsWith kv.1 "main/" = true) ∧
    (dispatch (Msg.mk "reqGetMeta" "t2" none none none (some "beta"))
        (dispatch (Msg.mk "reqPutMeta" "t1" none
          (some (MetaParam.mk (some [MetaEntryIn.mk "c1" (some "d") (some [])])))
          none (some "alpha")) (DispatchState.mk [] [])).2).1 =
      DispatchResponse.mk 200
        (DispatchBody.resGetMeta "t2" [OutEntry.mk "c1" (some "d") (some [])]) := by
  refine ⟨?_, ?_, ?_⟩
  · intro msg st n
    cases msg
    rfl
  · intro msg st kv hkv
    simp only [dispatch] at hkv
    by_cases t1 : msg.type = "reqGestalt"
    · rw [if_pos t1] at hkv; exact Or.inl hkv
    rw [if_neg t1] at hkv
    by_cases t2 : msg.type = "reqOpen"
    · rw [if_pos t2] at hkv
      rw [handleOpen_metaStore] at hkv
      exact Or.inl hkv
    rw [if_neg t2] at hkv
    by_cases t3 : msg.type = "reqPutMeta"
    · rw [if_pos t3] at hkv
      rcases hm : metasOf msg with _ | ms
      · simp only [handlePutMeta, hm] at hkv
        exact Or.inl hkv
      · simp only [handlePutMeta, hm] at hkv
        exact mem_foldl_putMain ms st.metaStore kv hkv
    rw [if_neg t3] at hkv
    by_cases t4 : msg.type = "reqGetMeta"
    · rw [if_pos t4] at hkv; exact Or.inl hkv
    rw [if_neg t4] at hkv
    by_cases t5 : msg.type = "reqDelMeta"
    · rw [if_pos t5] at hkv
      rcases hm : metasOf msg with _ | ms
      · simp only [handleDelMeta, hm] at hkv
        exact Or.inl hkv
      · simp only [handleDelMeta, hm] at hkv
        exact Or.inl (mem_foldl_delMain ms st.metaStore kv hkv)
    rw [if_neg t5] at hkv
    by_cases t6 : msg.type = "reqPutData"
    · rw [if_pos t6] at hkv; exact Or.inl hkv
    rw [if_neg t6] at hkv
    by_cases t7 : msg.type = "reqGetData"
    · rw [if_pos t7] at hkv; exact Or.inl hkv
    rw [if_neg t7] at hkv
    by_cases t8 : msg.type = "reqDelData"
    · rw [if_pos t8] at hkv; exact Or.inl hkv
    rw [if_neg t8] at hkv
    by_cases t9 : msg.type = "bindGetMeta"
    · rw [if_pos t9] at hkv; exact Or.inl hkv
    rw [if_neg t9] at hkv
    exact Or.inl hkv
  · decide

/-- Witness for `claim_C10`. -/
theorem claim_C10_witness :
    dispatch { Msg.mk "reqGetMeta" "t" none none none none with name := some "x" }
      (DispatchState.mk [] []) =
    dispatch (Msg.mk "reqGetMeta" "t" none none none none) (DispatchState.mk [] []) :=
  claim_C10.1 (Msg.mk "reqGetMeta" "t" none none none none) (DispatchState.mk [] []) (some "x")

/-- Witness for `claim_C4`. -/
theorem claim_C4_witness :
    (httpPutMetaRequest (some "ptr") (some "k1") "cleaned" (FPEnvelopeMetaM.mk "pl" ["q"])).1 =
      jsOrDefault (some "ptr") "main" ∧
    (httpPutMetaRequest (some "ptr") (some "k1") "cleaned" (FPEnvelopeMetaM.mk "pl" ["q"])).2.cid =
      jsOrDefault (some "k1") "cleaned" ∧
    (httpPutMetaRequest (some "ptr") (some "k1") "cleaned" (FPEnvelopeMetaM.mk "pl" ["q"])).2.data =
      (FPEnvelopeMetaM.mk "pl" ["q"]).payloadJson ∧
    (httpPutMetaRequest (some "ptr") (some "k1") "cleaned" (FPEnvelopeMetaM.mk "pl" ["q"])).2.parents = [] ∧
    mapLookup
      (metaKey (httpPutMetaRequest (some "ptr") (some "k1") "cleaned" (FPEnvelopeMetaM.mk "pl" ["q"])).1
        (httpPutMetaRequest (some "ptr") (some "k1") "cleaned" (FPEnvelopeMetaM.mk "pl" ["q"])).2.cid)
      (putMetaLegacy (httpPutMetaRequest (some "ptr") (some "k1") "cleaned" (FPEnvelopeMetaM.mk "pl" ["q"])).1
        [wireToEntry (httpPutMetaRequest (some "ptr") (some "k1") "cleaned" (FPEnvelopeMetaM.mk "pl" ["q"])).2] []) =
      some ⟨some (FPEnvelopeMetaM.mk "pl" ["q"]).payloadJson, some []⟩ :=
  claim_C4 (some "ptr") (some "k1") "cleaned" (FPEnvelopeMetaM.mk "pl" ["q"]) []
